import Mathlib

/-!
Shallow embedding of the `events` library (header-only C++ publish/subscribe
primitives) and proofs about the properties claimed by its specification.

The embedding follows the source headers:
  - `include/events/signal_handler/signal_handler.hpp` (single-threaded
    signal handler over a `plf::colony` of callbacks),
  - `include/events/connection.hpp` (connection / disconnect handles),
  - `include/events/dispatcher/event_dispatcher.hpp`
    (`detail::discrete_event_dispatcher` and the `std::map`-keyed
    `event_dispatcher`),
  - `include/events/dispatcher/synchronized_event_dispatcher.hpp`
    (snapshot-based `dispatch`),
  - `include/events/signal_handler/synchronized_signal_handler.hpp`
    (colony plus pending add/erase queues and a handle map).

Machine state is modelled with plain lists; type identities
(`std::type_index`) are modelled as natural-number keys, callbacks as Lean
functions tagged with identities.  C++ undefined behaviour (erasing a dead
colony slot, dereferencing a missing map iterator, calling through a dangling
registry pointer) is modelled by functions returning `Option`, with `none`
for the undefined executions.
-/

namespace Events

/-! ### plf::colony

A colony is modelled as a list of slots.  Erasing leaves a hole (`none`);
`insert` reuses the first hole, otherwise appends; iteration skips holes and
is stable across erasure.  This matches the behaviour the library relies on:
insertion order is preserved when no erasures intervene, and erasing during
iteration does not move other elements. -/

/-- Slot-list model of a `plf::colony`. -/
abbrev Colony (α : Type) : Type := List (Option α)

/-- The empty colony. -/
def colonyEmpty {α : Type} : Colony α := []

/-- Model of `colony::insert`: reuse the first erased slot, else append.
Returns the new colony and the slot index of the inserted element (the
"pointer" `&(*it)` that the library stores inside connections). -/
def colonyInsert {α : Type} : Colony α → α → Colony α × Nat
  | [], x => ([some x], 0)
  | none :: rest, x => (some x :: rest, 0)
  | some y :: rest, x =>
      let r := colonyInsert rest x
      (some y :: r.1, r.2 + 1)

/-- Model of iterating a colony (`for (auto& callback : callbacks)`):
the live elements in slot order. -/
def colonyIterate {α : Type} (c : Colony α) : List α := c.filterMap id

/-- Model of `colony::size()`: the number of live elements. -/
def colonySize {α : Type} (c : Colony α) : Nat := (colonyIterate c).length

/-- Model of `colony.erase(colony.get_iterator(ptr))`: defined only when
`ptr` addresses a live element; erasing a dead or out-of-range slot is
undefined behaviour in the source (`get_iterator` on an erased element),
modelled as `none`. -/
def colonyErase {α : Type} : Colony α → Nat → Option (Colony α)
  | [], _ => none
  | none :: _, 0 => none
  | some _ :: rest, 0 => some (none :: rest)
  | s :: rest, i + 1 => (colonyErase rest i).map (fun r => s :: r)

/-! ### Single-threaded signal handler

`signal_handler<R(A...)>` stores `std::function`s in a colony.  For the
claims we tag each stored callback with a numeric identity so that the
publication trace records which callback ran.  `connect` inserts and captures
the element pointer; `publish` iterates the colony invoking every live
callback in slot order, collecting the results when `R` is non-void. -/

/-- State of a single-threaded `signal_handler`: the colony of stored
callbacks, each tagged with an identity. -/
abbrev SigState (α β : Type) : Type := Colony (Nat × (α → β))

/-- Model of `signal_handler::connect`: insert the callback into the colony.
Returns the new state and the captured element pointer (slot index). -/
def sigConnect {α β : Type} (s : SigState α β) (e : Nat × (α → β)) :
    SigState α β × Nat :=
  colonyInsert s e

/-- Connect a list of callbacks in order, tagging the i-th with identity i
(the `N` sequential `connect` calls of the claims). -/
def sigConnectAll {α β : Type} (fs : List (α → β)) : SigState α β :=
  fs.enum.foldl (fun c e => (sigConnect c e).1) colonyEmpty

/-- Model of the non-void `signal_handler::publish`: iterate the colony,
invoke every live callback in slot order with the argument, and collect the
results (tagged by callback identity, recording the invocation trace). -/
def sigPublish {α β : Type} (s : SigState α β) (a : α) : List (Nat × β) :=
  (colonyIterate s).map (fun c => (c.1, c.2 a))

/-- Model of `signal_handler::size`. -/
def sigSize {α β : Type} (s : SigState α β) : Nat := colonySize s

/-! ### Connection handles

A `connection` stores a `std::function<void()>` that, for the single-threaded
handler, captures `this` and the raw element pointer and calls the private
`signal_handler::disconnect(ptr)`.  A default-constructed connection stores
no function; `connection::disconnect` invokes the stored function if present
and then nulls it.  Copying a connection copies the `std::function` by value.

For the disconnect claims the callbacks' behaviour is irrelevant, so the
registry is just a colony of tags. -/

/-- Registry state used by the connection claims: a colony of callback tags. -/
abbrev Registry : Type := Colony Nat

/-- Model of the private `signal_handler::disconnect(callback_pointer)`:
`callbacks.erase(callbacks.get_iterator(callback_pointer))`.  Undefined
(`none`) when the pointer no longer addresses a live element. -/
def registryDisconnect (s : Registry) (ptr : Nat) : Option Registry :=
  colonyErase s ptr

/-- A `connection` for the single-threaded handler: `some ptr` when it holds
a disconnect function capturing element pointer `ptr`, `none` when it is
default-constructed or already disconnected (null `std::function`). -/
abbrev Conn : Type := Option Nat

/-- Model of `connection::disconnect` acting on the registry: if the stored
function is present, invoke it (running `registryDisconnect`) and null it;
otherwise do nothing.  Returns the updated connection and registry, or `none`
for the undefined executions of the stored function. -/
def connDisconnect (c : Conn) (s : Registry) : Option (Conn × Registry) :=
  match c with
  | none => some (none, s)
  | some ptr => (registryDisconnect s ptr).map (fun r => (none, r))

/-- Model of `connection::disconnect` in a world where the registry may have
been destroyed (`none`): the stored function captures a raw `this` pointer,
so invoking it after the registry is destroyed calls through a dangling
pointer — undefined behaviour, modelled as `none`.  A connection with no
stored function performs no call and is safe in every world. -/
def connDisconnectWorld (c : Conn) (w : Option Registry) :
    Option (Conn × Option Registry) :=
  match c with
  | none => some (none, w)
  | some ptr =>
      match w with
      | none => none
      | some s => (registryDisconnect s ptr).map (fun r => (none, some r))

/-! ### Discrete event dispatcher

`detail::discrete_event_dispatcher<EventT>` pairs one signal handler (with
signature `void(EventT const&)`) and one `std::vector<EventT>` event queue.
Its `dispatch` moves the vector into a local buffer, clears the member, and
publishes each buffered event; `enqueue` appends.  Callbacks may re-enter
`enqueue` during the publication: we model a callback as its identity
together with the list of values it enqueues when invoked with a given
event (an empty list for a callback that only observes the event). -/

/-- State of a `detail::discrete_event_dispatcher`: the signal handler's
callbacks (identity and reentrant-enqueue behaviour) and the event queue. -/
structure DDState where
  callbacks : List (Nat × (Int → List Int))
  queue : List Int

/-- Model of `discrete_event_dispatcher::enqueue(event)`:
`events.emplace_back(event)`. -/
def ddEnqueue (s : DDState) (v : Int) : DDState :=
  { s with queue := s.queue ++ [v] }

/-- Model of `handler.publish(event)` inside `dispatch`: invoke each
callback in order with the event; each invocation appends its reentrant
enqueues to the live queue and is recorded in the delivery trace as
(callback identity, event value). -/
def ddPublish (cbs : List (Nat × (Int → List Int))) (v : Int)
    (q : List Int) : List Int × List (Nat × Int) :=
  match cbs with
  | [] => (q, [])
  | c :: rest =>
      let r := ddPublish rest v (q ++ c.2 v)
      (r.1, (c.1, v) :: r.2)

/-- The loop body of `dispatch`: publish each buffered event in FIFO
order, threading the live queue. -/
def ddDispatchLoop (cbs : List (Nat × (Int → List Int)))
    (buf : List Int) (q : List Int) : List Int × List (Nat × Int) :=
  match buf with
  | [] => (q, [])
  | v :: rest =>
      let p := ddPublish cbs v q
      let r := ddDispatchLoop cbs rest p.1
      (r.1, p.2 ++ r.2)

/-- Model of `discrete_event_dispatcher::dispatch`: move the queue into a
local buffer (`to_publish`), clear the member, then publish each buffered
event.  Returns the new state and the delivery trace. -/
def ddDispatch (s : DDState) : DDState × List (Nat × Int) :=
  let r := ddDispatchLoop s.callbacks s.queue []
  ({ callbacks := s.callbacks, queue := r.1 }, r.2)

/-- Model of `discrete_event_dispatcher::size`. -/
def ddSize (s : DDState) : Nat := s.queue.length

/-! ### Event dispatcher (type-keyed registry)

`event_dispatcher` owns a `std::map<std::type_index, shared_ptr<…>>` from
event-type identity to discrete dispatcher.  Type identities are modelled
as natural-number keys; the map as a key-sorted association list.  At the
dispatcher level a callback's reentrant behaviour is the list of
dispatcher-level `enqueue<E>(v)` calls it performs, i.e. a list of
(key, value) commands; `enqueue` on an unseen key materialises the
discrete dispatcher first (`get_or_create_dispatcher`, `try_emplace`). -/

/-- A discrete dispatcher entry inside the map: its signal handler's
callbacks (identity and dispatcher-level enqueue commands) and its queue. -/
structure EDisc where
  callbacks : List (Nat × (Int → List (Nat × Int)))
  queue : List Int

/-- The dispatcher registry: a `std::map` modelled as a key-sorted
association list from event-type key to discrete dispatcher. -/
abbrev EDState : Type := List (Nat × EDisc)

/-- Model of `dispatchers.find(key)`. -/
def edLookup : EDState → Nat → Option EDisc
  | [], _ => none
  | p :: rest, k => if p.1 = k then some p.2 else edLookup rest k

/-- Sorted insertion of a fresh key, as `std::map::try_emplace` places a
node at its ordered position (callers insert only absent keys). -/
def edInsertSorted : EDState → Nat → EDisc → EDState
  | [], k, d => [(k, d)]
  | p :: rest, k, d =>
      if k < p.1 then (k, d) :: p :: rest else p :: edInsertSorted rest k d

/-- Model of `get_or_create_dispatcher<E>` restricted to the map: reuse the
existing entry, else insert a fresh discrete dispatcher (no callbacks, empty
queue) at key `k`. -/
def edGetOrCreate (s : EDState) (k : Nat) : EDState :=
  match edLookup s k with
  | some _ => s
  | none => edInsertSorted s k ⟨[], []⟩

/-- Replace the queue of the entry at key `k` (the entry's signal handler is
untouched; other entries are unchanged). -/
def edSetQueue : EDState → Nat → List Int → EDState
  | [], _, _ => []
  | p :: rest, k, q =>
      (if p.1 = k then (p.1, { p.2 with queue := q }) else p)
        :: edSetQueue rest k q

/-- Append one value to the queue of the entry at key `k` (other entries
are unchanged). -/
def edPushQueue : EDState → Nat → Int → EDState
  | [], _, _ => []
  | p :: rest, k, v =>
      (if p.1 = k then (p.1, { p.2 with queue := p.2.queue ++ [v] }) else p)
        :: edPushQueue rest k v

/-- Model of `event_dispatcher::enqueue<E>(v)`:
`get_or_create_dispatcher<E>().enqueue(v)`. -/
def edEnqueue (s : EDState) (k : Nat) (v : Int) : EDState :=
  edPushQueue (edGetOrCreate s k) k v

/-- Run a callback's dispatcher-level enqueue commands in order. -/
def edApplyCmds (s : EDState) (cmds : List (Nat × Int)) : EDState :=
  cmds.foldl (fun st c => edEnqueue st c.1 c.2) s

/-- Model of `handler.publish(event)` for the discrete dispatcher at key
`k` inside the registry: invoke each callback in order; each invocation
mutates the registry through its enqueue commands.  Returns the new
registry, the delivery trace (key, callback identity, value) and the log of
enqueue commands performed. -/
def edPublish (k : Nat) (cbs : List (Nat × (Int → List (Nat × Int))))
    (v : Int) (s : EDState) :
    EDState × List (Nat × Nat × Int) × List (Nat × Int) :=
  match cbs with
  | [] => (s, [], [])
  | c :: rest =>
      let r := edPublish k rest v (edApplyCmds s (c.2 v))
      (r.1, (k, c.1, v) :: r.2.1, c.2 v ++ r.2.2)

/-- The buffered-event loop of the discrete `dispatch` at key `k`. -/
def edDrainLoop (k : Nat) (cbs : List (Nat × (Int → List (Nat × Int))))
    (buf : List Int) (s : EDState) :
    EDState × List (Nat × Nat × Int) × List (Nat × Int) :=
  match buf with
  | [] => (s, [], [])
  | v :: rest =>
      let p := edPublish k cbs v s
      let r := edDrainLoop k cbs rest p.1
      (r.1, p.2.1 ++ r.2.1, p.2.2 ++ r.2.2)

/-- Model of invoking `dispatcher->dispatch()` on the entry at key `k`:
move its queue into a local buffer, clear the member queue, then publish
each buffered event through its signal handler. -/
def edDrainKey (s : EDState) (k : Nat) :
    EDState × List (Nat × Nat × Int) × List (Nat × Int) :=
  match edLookup s k with
  | none => (s, [], [])
  | some d => edDrainLoop k d.callbacks d.queue (edSetQueue s k [])

/-- The `std::map` iteration step of the single-threaded
`event_dispatcher::dispatch`: advancing the iterator past key `last` lands
on the smallest key greater than `last` present in the current map (a node
inserted by a callback at a later position is reached by the ongoing
iteration; one inserted at an earlier position is not). -/
def edNextKey (s : EDState) (last : Option Nat) : Option Nat :=
  (s.map Prod.fst).find? (fun k =>
    match last with
    | none => true
    | some l => decide (l < k))

/-- The single-threaded `event_dispatcher::dispatch` loop
(`for (auto& [type, dispatcher] : dispatchers) dispatcher->dispatch();`)
iterating the live map.  Because callbacks may keep materialising
later-ordered keys, the recursion is fuelled; `none` means the fuel ran
out.  Returns the final registry, the list of keys whose discrete dispatch
ran (in order), the delivery trace and the enqueue-command log. -/
def edDispatchSTAux :
    Nat → Option Nat → EDState →
    Option (EDState × List Nat × List (Nat × Nat × Int) × List (Nat × Int))
  | 0, _, _ => none
  | fuel + 1, last, s =>
      match edNextKey s last with
      | none => some (s, [], [], [])
      | some k =>
          let d := edDrainKey s k
          (edDispatchSTAux fuel (some k) d.1).map (fun r =>
            (r.1, k :: r.2.1, d.2.1 ++ r.2.2.1, d.2.2 ++ r.2.2.2))

/-- Model of the single-threaded `event_dispatcher::dispatch`. -/
def edDispatchST (fuel : Nat) (s : EDState) :
    Option (EDState × List Nat × List (Nat × Nat × Int) × List (Nat × Int)) :=
  edDispatchSTAux fuel none s

/-- The snapshot loop of `basic_synchronized_event_dispatcher::dispatch`:
the snapshot of dispatcher references is fixed at entry, so the recursion
is structural over it.  Returns the final registry, the keys whose
discrete dispatch ran (in order), the delivery trace and the
enqueue-command log. -/
def edDispatchMTAux (snap : List Nat) (s : EDState) :
    EDState × List Nat × List (Nat × Nat × Int) × List (Nat × Int) :=
  match snap with
  | [] => (s, [], [], [])
  | k :: rest =>
      let d := edDrainKey s k
      let r := edDispatchMTAux rest d.1
      (r.1, k :: r.2.1, d.2.1 ++ r.2.2.1, d.2.2 ++ r.2.2.2)

/-- Model of `basic_synchronized_event_dispatcher::dispatch`: under the
shared lock, snapshot the discrete-dispatcher references from the map;
release the lock; invoke `dispatch()` on each snapshotted entry. -/
def edDispatchMT (s : EDState) :
    EDState × List Nat × List (Nat × Nat × Int) × List (Nat × Int) :=
  edDispatchMTAux (s.map Prod.fst) s

/-- Model of `queue_size<E>()` for a specific event type, from the source:
`dispatchers.find(key)`, returning the entry's size when found and `0`
otherwise — the map is looked up, never inserted into. -/
def edQueueSizeT (s : EDState) (k : Nat) : Nat :=
  match edLookup s k with
  | some d => d.queue.length
  | none => 0

/-- Model of `queue_size()` with the default (`void`) argument: the sum of
the sizes over all map values. -/
def edQueueSizeTotal (s : EDState) : Nat :=
  (s.map (fun p => p.2.queue.length)).sum

/-- The queue stored for key `k` (empty when the key is absent); used to
state frame properties. -/
def edQueueOf (s : EDState) (k : Nat) : List Int :=
  match edLookup s k with
  | some d => d.queue
  | none => []

/-- The two read-only observations of claim C10, as an operation language:
`typed k` is `queue_size<E>()`, `total` is `queue_size()`. -/
inductive QsOp : Type
  | typed (k : Nat)
  | total

/-- Run a sequence of `queue_size` observations against the registry,
threading the state as the member functions execute on the object. -/
def edRunQueueSizes : List QsOp → EDState → EDState × List Nat
  | [], s => (s, [])
  | op :: rest, s =>
      let r : Nat :=
        match op with
        | .typed k => edQueueSizeT s k
        | .total => edQueueSizeTotal s
      let t := edRunQueueSizes rest s
      (t.1, r :: t.2)

/-- The keys of the materialised event types, in map order. -/
def edKeys (s : EDState) : List Nat := s.map Prod.fst

/-- The registry with every queue drained (each entry keeps its callbacks,
its queue emptied). -/
def edClearQueues (s : EDState) : EDState :=
  s.map (fun p => (p.1, { p.2 with queue := [] }))

/-- Observation-only callbacks: none of them performs a dispatcher-level
enqueue when invoked. -/
def edPure (cbs : List (Nat × (Int → List (Nat × Int)))) : Prop :=
  ∀ c ∈ cbs, ∀ v, c.2 v = []

/-- The canonical full-drain delivery trace: for each entry in map order,
its queued events in FIFO order, each delivered to each of its callbacks
in order. -/
def edCanonTrace (s : EDState) : List (Nat × Nat × Int) :=
  s.flatMap (fun p =>
    p.2.queue.flatMap (fun v => p.2.callbacks.map (fun c => (p.1, c.1, v))))

/-- Key `k` lies at or before the iteration position `last` (vacuously
false before the iteration has visited anything). -/
def keyLeOpt (k : Nat) (last : Option Nat) : Prop :=
  match last with
  | none => False
  | some l => k ≤ l

/-- Key `k` lies strictly after the iteration position `last` (vacuously
true before the iteration has visited anything). -/
def optLtKey (last : Option Nat) (k : Nat) : Prop :=
  match last with
  | none => True
  | some l => l < k

/-! ### Synchronized signal handler

`synchronized_signal_handler<R(A...)>` stores callbacks in a colony guarded
by `callback_mut`, plus a handle map (`handles : handle → element pointer`,
null while the callback is pending insertion), a pending-add list `to_add`
and a pending-erase list `to_erase`, with `next_handle` issuing handles.

`connect` outside a publish acquires `callback_mut` (the `try_to_lock`
succeeds) and inserts directly; `connect` from inside a callback running
under `publish`'s shared lock fails the `try_to_lock` and defers the
insertion to `to_add`.  `disconnect(handle)` only appends to `to_erase`.
`publish` first drains `to_erase` (`erase_expired_callbacks`), then iterates
the colony under the shared lock, then drains `to_add`
(`add_pending_callbacks`).

Callback behaviour is modelled one reentrancy level deep: a stored callback
either only observes the signal (`idle`) or performs one reentrant
`connect` of a new (idle) callback with a given tag. -/

/-- What a synchronized-handler callback does when invoked. -/
inductive SAction : Type
  | idle
  | connectNew (tag : Nat)
deriving DecidableEq, Repr

/-- State of a `synchronized_signal_handler`. -/
structure SyncState where
  callbacks : List (Option (Nat × SAction))
  handles : List (Nat × Option Nat)
  toAdd : List (Nat × (Nat × SAction))
  toErase : List Nat
  nextHandle : Nat
deriving DecidableEq, Repr

/-- Model of `handles.find(handle)`: `some v` when the handle is mapped to
`v` (itself an optional element pointer), `none` when absent. -/
def hLookup : List (Nat × Option Nat) → Nat → Option (Option Nat)
  | [], _ => none
  | p :: rest, h => if p.1 = h then some p.2 else hLookup rest h

/-- Model of `handles[handle] = ptr` (`operator[]` insert-or-assign). -/
def hSet : List (Nat × Option Nat) → Nat → Option Nat → List (Nat × Option Nat)
  | [], h, v => [(h, v)]
  | p :: rest, h, v => if p.1 = h then (h, v) :: rest else p :: hSet rest h v

/-- Model of `handles.erase(it)` for a found iterator. -/
def hErase : List (Nat × Option Nat) → Nat → List (Nat × Option Nat)
  | [], _ => []
  | p :: rest, h => if p.1 = h then rest else p :: hErase rest h

/-- Model of `synchronized_signal_handler::connect` called with no publish
in progress: the `try_to_lock` on `callback_mut` succeeds, so the callback
is inserted into the colony directly and the handle map records its element
pointer.  Returns the new state and the issued handle. -/
def syncConnectDirect (s : SyncState) (e : Nat × SAction) : SyncState × Nat :=
  let h := s.nextHandle
  let ins := colonyInsert s.callbacks e
  ({ s with
      callbacks := ins.1
      handles := hSet s.handles h (some ins.2)
      nextHandle := h + 1 }, h)

/-- Model of the private `synchronized_signal_handler::disconnect(handle)`
invoked by a connection: append the handle to `to_erase`. -/
def syncDisconnect (s : SyncState) (h : Nat) : SyncState :=
  { s with toErase := s.toErase ++ [h] }

/-- Model of `synchronized_signal_handler::size`: the colony size under the
lock (pending erasures and pending additions are not reflected). -/
def syncSize (s : SyncState) : Nat := colonySize s.callbacks

/-- The loop of `erase_expired_callbacks_impl`: for each queued handle, the
code runs `handles.find(handle)` and dereferences the iterator without an
end check — a handle absent from the map is undefined behaviour (`none`).
When the mapped pointer is non-null the colony element is erased (undefined
if the slot is dead); the handle entry is erased in either case. -/
def syncEraseLoop :
    List Nat → List (Option (Nat × SAction)) → List (Nat × Option Nat) →
    Option (List (Option (Nat × SAction)) × List (Nat × Option Nat))
  | [], c, hs => some (c, hs)
  | h :: rest, c, hs =>
      match hLookup hs h with
      | none => none
      | some none => syncEraseLoop rest c (hErase hs h)
      | some (some slot) =>
          match colonyErase c slot with
          | none => none
          | some c2 => syncEraseLoop rest c2 (hErase hs h)

/-- Model of `erase_expired_callbacks`: return immediately when `to_erase`
is empty, otherwise run the erase loop and clear `to_erase`. -/
def syncEraseExpired (s : SyncState) : Option SyncState :=
  if s.toErase = [] then some s
  else
    (syncEraseLoop s.toErase s.callbacks s.handles).map (fun r =>
      { s with callbacks := r.1, handles := r.2, toErase := [] })

/-- The loop of `add_pending_callbacks_impl` as written in the source: for
each pending `(handle, callback)` the code runs `handles.find(handle)` and
then `if (it != handles.end()) continue;` — it skips the insertion whenever
the handle IS present in the handle map (its own comment describes the
opposite: skip only when the handle was disconnected before insertion, i.e.
absent).  On the absent branch the code inserts the callback and then
assigns through the end iterator `it`, which is undefined (`none`). -/
def syncAddLoop :
    List (Nat × (Nat × SAction)) → List (Option (Nat × SAction)) →
    List (Nat × Option Nat) →
    Option (List (Option (Nat × SAction)) × List (Nat × Option Nat))
  | [], c, hs => some (c, hs)
  | (h, _) :: rest, c, hs =>
      match hLookup hs h with
      | some _ => syncAddLoop rest c hs
      | none => none

/-- Model of `add_pending_callbacks`: return immediately when `to_add` is
empty, otherwise run the add loop and clear `to_add`. -/
def syncAddPending (s : SyncState) : Option SyncState :=
  if s.toAdd = [] then some s
  else
    (syncAddLoop s.toAdd s.callbacks s.handles).map (fun r =>
      { s with callbacks := r.1, handles := r.2, toAdd := [] })

/-- Effect of invoking one stored callback during `publish`: an `idle`
callback does nothing; a `connectNew` callback re-enters `connect` while
the publish holds the shared lock, so the `try_to_lock` fails and the
insertion is deferred — a fresh handle is issued, the pair is appended to
`to_add` and the handle map records a null element pointer. -/
def syncRunAction (s : SyncState) (a : SAction) : SyncState :=
  match a with
  | .idle => s
  | .connectNew t =>
      let h := s.nextHandle
      { s with
          toAdd := s.toAdd ++ [(h, (t, SAction.idle))]
          handles := hSet s.handles h none
          nextHandle := h + 1 }

/-- Model of `synchronized_signal_handler::publish`: drain `to_erase`,
iterate the colony under the shared lock invoking each live callback in
slot order (the colony itself cannot change during the iteration — all
mutation is deferred), then drain `to_add`.  Returns the final state and
the trace of invoked callback tags. -/
def syncPublish (s : SyncState) : Option (SyncState × List Nat) :=
  (syncEraseExpired s).bind (fun s1 =>
    let live := colonyIterate s1.callbacks
    let s2 := live.foldl (fun st e => syncRunAction st e.2) s1
    (syncAddPending s2).map (fun s3 => (s3, live.map Prod.fst)))

/-! ### Lemmas about the colony and the single-threaded signal handler -/

/-- Inserting into a colony with no erased slots appends and returns the
next slot index. -/
theorem colonyInsert_map_some {α : Type} (l : List α) (x : α) :
    colonyInsert (l.map some) x = (l.map some ++ [some x], l.length) := by
  induction l with
  | nil => rfl
  | cons a t ih => simp [colonyInsert, ih]

/-- Connecting a list of callbacks one after another into a hole-free
colony appends them all in order. -/
theorem foldl_colonyInsert_map_some {ε : Type} (es : List ε) :
    ∀ (l : List ε),
      es.foldl (fun c e => (colonyInsert c e).1) (l.map some)
        = ((l ++ es).map some) := by
  induction es with
  | nil => intro l; simp
  | cons e t ih =>
      intro l
      have h := colonyInsert_map_some l e
      calc (e :: t).foldl (fun c e => (colonyInsert c e).1) (l.map some)
          = t.foldl (fun c e => (colonyInsert c e).1)
              ((colonyInsert (l.map some) e).1) := rfl
        _ = t.foldl (fun c e => (colonyInsert c e).1) ((l ++ [e]).map some) := by
              rw [h]; simp
        _ = ((l ++ [e] ++ t).map some) := ih (l ++ [e])
        _ = ((l ++ e :: t).map some) := by simp

/-- A colony built by sequential connects from empty holds exactly the
connected elements, in connection order, with no holes. -/
theorem sigConnectAll_eq {α β : Type} (fs : List (α → β)) :
    sigConnectAll fs = fs.enum.map some := by
  have h := foldl_colonyInsert_map_some (ε := Nat × (α → β)) fs.enum []
  simpa [sigConnectAll, sigConnect, colonyEmpty] using h

/-- C3: for `N` callbacks connected sequentially to a single-threaded
`signal_handler` followed by one `publish`, every callback is invoked
exactly once, invocations happen in connection order, and (the return type
being non-void) `publish` returns the callback results in that same
connection order: the tagged result list enumerates the connected callbacks
in order, each applied once to the published argument. -/
theorem events_C3_publish_connection_order {α β : Type}
    (fs : List (α → β)) (a : α) :
    sigPublish (sigConnectAll fs) a = fs.enum.map (fun p => (p.1, p.2 a)) := by
  rw [sigPublish, sigConnectAll_eq, colonyIterate, List.filterMap_map]
  simp

/-- C4 counterexample: after `conn1 = handler.connect(cb)` (element stored
in slot 0) both `conn1` and its copy `conn2` hold a copy of the disconnect
function capturing slot 0.  The first `disconnect()` through either copy
erases the element and succeeds, but the second `disconnect()` through the
other copy — whose own `std::function` is still non-null — re-invokes
`signal_handler::disconnect` on the already-erased element
(`colony::get_iterator` on an erased slot), which is undefined behaviour
(`none`), not the no-op with unchanged registry state that the claim
asserts. -/
theorem events_C4_counterexample_copy_disconnect :
    connDisconnect (some 0) ((colonyInsert (colonyEmpty : Colony Nat) 7).1)
        = some (none, [none])
      ∧ connDisconnect (some 0) ([none] : Registry) = none := by
  exact ⟨rfl, rfl⟩

/-- C4 amended: `connection::disconnect` is idempotent on a single
connection object — the object nulls its stored function after the first
call, so any later call on the same object is a no-op with unchanged
registry state.  (Copies do not share this capability: each copy holds an
independent copy of the `std::function`, and the counterexample shows a
disconnect through another live copy re-invokes the registry disconnect
instead of being a no-op.) -/
theorem events_C4_amended_disconnect_idempotent_same_object
    (c c2 : Conn) (s s2 : Registry)
    (h : connDisconnect c s = some (c2, s2)) :
    connDisconnect c2 s2 = some (c2, s2) := by
  have hc2 : c2 = none := by
    cases c with
    | none =>
        simp only [connDisconnect, Option.some.injEq, Prod.mk.injEq] at h
        exact h.1.symm
    | some p =>
        simp only [connDisconnect] at h
        cases hr : registryDisconnect s p with
        | none => rw [hr] at h; simp at h
        | some r =>
            rw [hr] at h
            simp only [Option.map_some', Option.some.injEq, Prod.mk.injEq] at h
            exact h.1.symm
  subst hc2
  rfl

/-- Witness for the amended C4 theorem at a concrete input: disconnecting
the connection for slot 0 in a one-element registry succeeds, and a second
disconnect on the same (now null) connection object is a no-op. -/
theorem events_C4_amended_witness :
    connDisconnect none ([none] : Registry) = some (none, [none]) :=
  events_C4_amended_disconnect_idempotent_same_object
    (some 0) none [some 7] [none] (by decide)

/-- C9 counterexample: a live connection holds a disconnect function that
captured the registry by raw pointer; invoking `disconnect()` after the
registry has been destroyed calls through the dangling pointer — undefined
behaviour (`none`), not the safe detected no-op the claim asserts.  The
source's `signal_handler::connect` captures `this` directly and no weak
reference or generation token exists. -/
theorem events_C9_counterexample_destroyed_registry :
    connDisconnectWorld (some 0) (none : Option Registry) = none := by
  exact rfl

/-- C9 amended: `disconnect` is a guaranteed safe no-op only for a
connection whose stored function is null (default-constructed, moved-from,
or already disconnected) — such a connection performs no registry call and
is safe in every world, including one whose registry has been destroyed.
A connection with a live disconnect function holds a raw registry pointer,
and the code performs no destroyed-registry detection. -/
theorem events_C9_amended_null_connection_noop (w : Option Registry) :
    connDisconnectWorld none w = some (none, w) := rfl

/-! ### Lemmas about the discrete event dispatcher -/

/-- A sequence of `enqueue` calls appends the events to the queue in call
order; the callbacks are untouched. -/
theorem foldl_ddEnqueue (es : List Int) :
    ∀ (cbs : List (Nat × (Int → List Int))) (q : List Int),
      es.foldl ddEnqueue ⟨cbs, q⟩ = ⟨cbs, q ++ es⟩ := by
  induction es with
  | nil => intro cbs q; simp
  | cons v t ih => intro cbs q; simp [ddEnqueue, ih]

/-- Publishing one event invokes each callback once in order: the trace
lists every callback paired with the event, and the queue grows by the
concatenation of the callbacks' reentrant enqueues. -/
theorem ddPublish_eq (v : Int) :
    ∀ (cbs : List (Nat × (Int → List Int))) (q : List Int),
      ddPublish cbs v q
        = (q ++ cbs.flatMap (fun c => c.2 v), cbs.map (fun c => (c.1, v))) := by
  intro cbs
  induction cbs with
  | nil => intro q; simp [ddPublish]
  | cons c rest ih => intro q; simp [ddPublish, ih]

/-- The dispatch loop delivers every buffered event to every callback in
FIFO order and accumulates all reentrant enqueues onto the queue. -/
theorem ddDispatchLoop_eq (cbs : List (Nat × (Int → List Int))) :
    ∀ (buf q : List Int),
      ddDispatchLoop cbs buf q
        = (q ++ buf.flatMap (fun v => cbs.flatMap (fun c => c.2 v)),
           buf.flatMap (fun v => cbs.map (fun c => (c.1, v)))) := by
  intro buf
  induction buf with
  | nil => intro q; simp [ddDispatchLoop]
  | cons v rest ih => intro q; simp [ddDispatchLoop, ddPublish_eq, ih]

/-- C2: `discrete_event_dispatcher::dispatch` drains the queue exactly once
at entry.  The delivery trace is exactly the queue contents at entry, each
delivered to each callback in FIFO order — independent of what the
callbacks enqueue.  Everything the callbacks enqueue during the drain forms
the post-dispatch queue, and it is exactly what the next `dispatch`
delivers: an event enqueued during a dispatch is visible only to a
subsequent dispatch.  (The synchronized variant's `dispatch` has the same
move-then-iterate structure, with the queue mutex released before the
publications.) -/
theorem events_C2_enqueue_during_dispatch_deferred (s : DDState) :
    (ddDispatch s).2
        = s.queue.flatMap (fun v => s.callbacks.map (fun c => (c.1, v)))
      ∧ (ddDispatch s).1.queue
          = s.queue.flatMap (fun v => s.callbacks.flatMap (fun c => c.2 v))
      ∧ (ddDispatch ((ddDispatch s).1)).2
          = ((ddDispatch s).1.queue).flatMap
              (fun v => s.callbacks.map (fun c => (c.1, v))) := by
  refine ⟨?_, ?_, ?_⟩ <;> simp [ddDispatch, ddDispatchLoop_eq]

/-- C1: for any sequence of enqueues followed by exactly one `dispatch`
with observation-only callbacks (no other operations), every enqueued event
is delivered to each connected callback exactly once, in the FIFO order of
the enqueues; afterwards the queue is empty (`queue_size()` is 0) and a
second `dispatch` invokes no callbacks. -/
theorem events_C1_discrete_fifo_delivery
    (cbs : List (Nat × (Int → List Int))) (es : List Int)
    (hpure : ∀ c ∈ cbs, ∀ v, c.2 v = []) :
    (ddDispatch (es.foldl ddEnqueue ⟨cbs, []⟩)).2
        = es.flatMap (fun v => cbs.map (fun c => (c.1, v)))
      ∧ ddSize (ddDispatch (es.foldl ddEnqueue ⟨cbs, []⟩)).1 = 0
      ∧ (ddDispatch ((ddDispatch (es.foldl ddEnqueue ⟨cbs, []⟩)).1)).2 = [] := by
  have hgen : ∀ v, cbs.flatMap (fun c => c.2 v) = [] := by
    intro v
    rw [List.flatMap_eq_nil_iff]
    intro c hc
    exact hpure c hc v
  have hq : es.flatMap (fun v => cbs.flatMap (fun c => c.2 v)) = [] := by
    rw [List.flatMap_eq_nil_iff]
    intro v _
    exact hgen v
  rw [foldl_ddEnqueue]
  refine ⟨?_, ?_, ?_⟩ <;>
    simp [ddDispatch, ddDispatchLoop_eq, ddSize, hq]

/-- Witness for C1 at a concrete input: one recording callback, three
enqueued events; the dispatch delivers them in FIFO order, empties the
queue, and a second dispatch delivers nothing. -/
theorem events_C1_witness :
    (ddDispatch (([1, 2, 3] : List Int).foldl ddEnqueue
          ⟨[(0, fun _ : Int => ([] : List Int))], []⟩)).2
        = ([1, 2, 3] : List Int).flatMap
            (fun v => [((0 : Nat), fun _ : Int => ([] : List Int))].map
              (fun c => (c.1, v)))
      ∧ ddSize (ddDispatch (([1, 2, 3] : List Int).foldl ddEnqueue
            ⟨[(0, fun _ : Int => ([] : List Int))], []⟩)).1 = 0
      ∧ (ddDispatch ((ddDispatch (([1, 2, 3] : List Int).foldl ddEnqueue
            ⟨[(0, fun _ : Int => ([] : List Int))], []⟩)).1)).2 = [] :=
  events_C1_discrete_fifo_delivery [(0, fun _ : Int => ([] : List Int))] [1, 2, 3]
    (by
      intro c hc v
      rw [List.mem_singleton] at hc
      subst hc
      rfl)

/-- C10: `queue_size<E>()` and `queue_size()` are read-only with respect to
the dispatcher registry.  Running any sequence of queue-size observations
leaves the registry state — the set of materialised event types and every
queue's contents — unchanged, and looking up an unseen type returns 0
without creating its discrete dispatcher (the source uses
`dispatchers.find`, never `try_emplace`, on this path). -/
theorem events_C10_queue_size_readonly (ops : List QsOp) (s : EDState) :
    (edRunQueueSizes ops s).1 = s
      ∧ ∀ k, edLookup s k = none → edQueueSizeT s k = 0 := by
  constructor
  · induction ops with
    | nil => rfl
    | cons op rest ih => simp [edRunQueueSizes, ih]
  · intro k h
    simp [edQueueSizeT, h]

/-- Witness for C10 at a concrete input: three observations against a
registry with one materialised type leave the registry unchanged, and the
unseen type 2 reports size 0. -/
theorem events_C10_witness :
    (edRunQueueSizes [QsOp.typed 1, QsOp.typed 2, QsOp.total]
          [(1, ⟨[], [5, 6]⟩)]).1 = [(1, ⟨[], [5, 6]⟩)]
      ∧ edQueueSizeT [(1, ⟨[], [5, 6]⟩)] 2 = 0 :=
  ⟨(events_C10_queue_size_readonly [QsOp.typed 1, QsOp.typed 2, QsOp.total]
      [(1, ⟨[], [5, 6]⟩)]).1,
   (events_C10_queue_size_readonly [QsOp.typed 1, QsOp.typed 2, QsOp.total]
      [(1, ⟨[], [5, 6]⟩)]).2 2 rfl⟩

/-! ### Frame lemmas for the dispatcher registry -/

/-- Appending to the queue at key `k` does not change the entry found for a
different key. -/
theorem edLookup_pushQueue_ne (k : Nat) (v : Int) (j : Nat) (hjk : j ≠ k) :
    ∀ s : EDState, edLookup (edPushQueue s k v) j = edLookup s j := by
  intro s
  induction s with
  | nil => rfl
  | cons p rest ih =>
      have hkj : k ≠ j := fun h => hjk h.symm
      by_cases hpk : p.1 = k
      · have hpj : p.1 ≠ j := by rw [hpk]; exact hkj
        simp [edPushQueue, edLookup, hpk, hpj, hkj, hjk, ih]
      · by_cases hpj : p.1 = j
        · simp [edPushQueue, edLookup, hpk, hpj, hkj, hjk]
        · simp [edPushQueue, edLookup, hpk, hpj, hkj, hjk, ih]

/-- Appending to the queue at key `k` appends to the entry found for `k`. -/
theorem edLookup_pushQueue_self (k : Nat) (v : Int) :
    ∀ s : EDState,
      edLookup (edPushQueue s k v) k
        = (edLookup s k).map (fun d => { d with queue := d.queue ++ [v] }) := by
  intro s
  induction s with
  | nil => rfl
  | cons p rest ih =>
      by_cases hpk : p.1 = k
      · simp [edPushQueue, edLookup, hpk]
      · simp [edPushQueue, edLookup, hpk, ih]

/-- Replacing the queue at key `k` does not change the entry found for a
different key. -/
theorem edLookup_setQueue_ne (k : Nat) (q : List Int) (j : Nat) (hjk : j ≠ k) :
    ∀ s : EDState, edLookup (edSetQueue s k q) j = edLookup s j := by
  intro s
  induction s with
  | nil => rfl
  | cons p rest ih =>
      have hkj : k ≠ j := fun h => hjk h.symm
      by_cases hpk : p.1 = k
      · have hpj : p.1 ≠ j := by rw [hpk]; exact hkj
        simp [edSetQueue, edLookup, hpk, hpj, hkj, hjk, ih]
      · by_cases hpj : p.1 = j
        · simp [edSetQueue, edLookup, hpk, hpj, hkj, hjk]
        · simp [edSetQueue, edLookup, hpk, hpj, hkj, hjk, ih]

/-- Inserting a fresh key at its sorted position does not change the entry
found for a different key. -/
theorem edLookup_insertSorted_ne (k : Nat) (d : EDisc) (j : Nat) (hjk : j ≠ k) :
    ∀ s : EDState, edLookup (edInsertSorted s k d) j = edLookup s j := by
  intro s
  induction s with
  | nil =>
      have hkj : k ≠ j := fun h => hjk h.symm
      simp [edInsertSorted, edLookup, hkj]
  | cons p rest ih =>
      have hkj : k ≠ j := fun h => hjk h.symm
      by_cases hlt : k < p.1
      · simp [edInsertSorted, edLookup, hlt, hkj, hjk]
      · by_cases hpj : p.1 = j
        · simp only [edInsertSorted, if_neg hlt]
          simp [edLookup, hpj]
        · simp only [edInsertSorted, if_neg hlt]
          simp [edLookup, hpj, ih]

/-- Inserting a fresh absent key makes it findable with the fresh entry. -/
theorem edLookup_insertSorted_self (k : Nat) (d : EDisc) :
    ∀ s : EDState, edLookup s k = none →
      edLookup (edInsertSorted s k d) k = some d := by
  intro s
  induction s with
  | nil => intro _; simp [edInsertSorted, edLookup]
  | cons p rest ih =>
      intro habs
      by_cases hpk : p.1 = k
      · simp [edLookup, hpk] at habs
      · have hrest : edLookup rest k = none := by
          simpa [edLookup, hpk] using habs
        by_cases hlt : k < p.1
        · simp [edInsertSorted, edLookup, hlt]
        · simp [edInsertSorted, edLookup, hlt, hpk, ih hrest]

/-- An absent key has an empty queue view. -/
theorem edQueueOf_eq_nil_of_not_mem (s : EDState) (k : Nat)
    (h : k ∉ edKeys s) : edQueueOf s k = [] := by
  induction s with
  | nil => rfl
  | cons p rest ih =>
      simp only [edKeys, List.map_cons, List.mem_cons] at h
      push_neg at h
      have hpk : p.1 ≠ k := fun he => h.1 (he.symm)
      have := ih (by simpa [edKeys] using h.2)
      simpa [edQueueOf, edLookup, hpk] using this

/-- Enqueueing at key `k` appends to the queue view of `k` (materialising
the discrete dispatcher when absent). -/
theorem edQueueOf_enqueue_self (s : EDState) (k : Nat) (v : Int) :
    edQueueOf (edEnqueue s k v) k = edQueueOf s k ++ [v] := by
  unfold edEnqueue edGetOrCreate
  cases h : edLookup s k with
  | some d => simp [edQueueOf, edLookup_pushQueue_self, h]
  | none =>
      have hins := edLookup_insertSorted_self k ⟨[], []⟩ s h
      simp [edQueueOf, edLookup_pushQueue_self, hins, h]

/-- Enqueueing at key `k` leaves the queue view of every other key
unchanged. -/
theorem edQueueOf_enqueue_ne (s : EDState) (k : Nat) (v : Int) (j : Nat)
    (hjk : j ≠ k) : edQueueOf (edEnqueue s k v) j = edQueueOf s j := by
  unfold edEnqueue edGetOrCreate
  cases h : edLookup s k with
  | some d => simp [edQueueOf, edLookup_pushQueue_ne k v j hjk]
  | none =>
      simp [edQueueOf, edLookup_pushQueue_ne k v j hjk,
        edLookup_insertSorted_ne k ⟨[], []⟩ j hjk]

/-- Running a command list appends, to each key's queue view, exactly the
values of the commands addressed to that key, in order. -/
theorem edQueueOf_applyCmds (cmds : List (Nat × Int)) :
    ∀ (s : EDState) (j : Nat),
      edQueueOf (edApplyCmds s cmds) j
        = edQueueOf s j ++ (cmds.filter (fun c => c.1 == j)).map Prod.snd := by
  induction cmds with
  | nil => intro s j; simp [edApplyCmds]
  | cons c rest ih =>
      intro s j
      have hstep : edApplyCmds s (c :: rest) = edApplyCmds (edEnqueue s c.1 c.2) rest := rfl
      rw [hstep, ih]
      by_cases hcj : c.1 = j
      · subst hcj
        rw [edQueueOf_enqueue_self]
        simp [List.filter_cons]
      · rw [edQueueOf_enqueue_ne s c.1 c.2 j (fun h => hcj h.symm)]
        simp [List.filter_cons, hcj]

/-- Publishing one event through the callbacks at key `k` changes each
key's queue view exactly by the logged commands addressed to it. -/
theorem edQueueOf_publish (k : Nat) (v : Int) :
    ∀ (cbs : List (Nat × (Int → List (Nat × Int)))) (s : EDState) (j : Nat),
      edQueueOf (edPublish k cbs v s).1 j
        = edQueueOf s j
            ++ (((edPublish k cbs v s).2.2).filter (fun c => c.1 == j)).map
                Prod.snd := by
  intro cbs
  induction cbs with
  | nil => intro s j; simp [edPublish]
  | cons c rest ih =>
      intro s j
      simp only [edPublish]
      rw [ih, edQueueOf_applyCmds]
      simp [List.filter_append, List.append_assoc]

/-- The buffered-event loop changes each key's queue view exactly by the
logged commands addressed to it. -/
theorem edQueueOf_drainLoop (k : Nat)
    (cbs : List (Nat × (Int → List (Nat × Int)))) :
    ∀ (buf : List Int) (s : EDState) (j : Nat),
      edQueueOf (edDrainLoop k cbs buf s).1 j
        = edQueueOf s j
            ++ (((edDrainLoop k cbs buf s).2.2).filter (fun c => c.1 == j)).map
                Prod.snd := by
  intro buf
  induction buf with
  | nil => intro s j; simp [edDrainLoop]
  | cons v rest ih =>
      intro s j
      simp only [edDrainLoop]
      rw [ih, edQueueOf_publish]
      simp [List.filter_append, List.append_assoc]

/-- Draining key `k` changes the queue view of any other key exactly by
the logged commands addressed to it: a key that is not drained is never
emptied, it only accumulates enqueues. -/
theorem edQueueOf_drainKey (s : EDState) (k j : Nat) (hjk : j ≠ k) :
    edQueueOf (edDrainKey s k).1 j
      = edQueueOf s j
          ++ (((edDrainKey s k).2.2).filter (fun c => c.1 == j)).map
              Prod.snd := by
  unfold edDrainKey
  cases h : edLookup s k with
  | none => simp
  | some d =>
      rw [edQueueOf_drainLoop]
      simp [edQueueOf, edLookup_setQueue_ne k [] j hjk]

/-- The snapshot loop drains only snapshotted keys: the queue view of any
key outside the snapshot grows exactly by the logged commands addressed to
it. -/
theorem edQueueOf_dispatchMTAux (j : Nat) :
    ∀ (snap : List Nat) (s : EDState), j ∉ snap →
      edQueueOf (edDispatchMTAux snap s).1 j
        = edQueueOf s j
            ++ (((edDispatchMTAux snap s).2.2.2).filter
                (fun c => c.1 == j)).map Prod.snd := by
  intro snap
  induction snap with
  | nil => intro s _; simp [edDispatchMTAux]
  | cons k rest ih =>
      intro s hj
      have hjk : j ≠ k := fun h => hj (h ▸ List.mem_cons_self k rest)
      have hjr : j ∉ rest := fun h => hj (List.mem_cons_of_mem k h)
      simp only [edDispatchMTAux]
      rw [ih _ hjr, edQueueOf_drainKey s k j hjk]
      simp [List.filter_append, List.append_assoc]

/-- The snapshot loop invokes the per-type dispatch exactly on the
snapshotted keys, in snapshot order. -/
theorem edDispatchMTAux_visited :
    ∀ (snap : List Nat) (s : EDState), (edDispatchMTAux snap s).2.1 = snap := by
  intro snap
  induction snap with
  | nil => intro s; rfl
  | cons k rest ih => intro s; simp [edDispatchMTAux, ih]

/-- A key absent from the key list is not found by lookup. -/
theorem edLookup_eq_none_of_not_mem (s : EDState) (k : Nat)
    (h : k ∉ edKeys s) : edLookup s k = none := by
  induction s with
  | nil => rfl
  | cons p rest ih =>
      simp only [edKeys, List.map_cons, List.mem_cons] at h
      push_neg at h
      have hpk : p.1 ≠ k := fun he => h.1 he.symm
      simp [edLookup, hpk, ih (by simpa [edKeys] using h.2)]

/-- C8: the thread-safe dispatcher's `dispatch()` invokes the per-type
dispatch exactly on the set of discrete dispatchers captured from the map
at entry (in map order) — the structure that lets the source release the
mapping lock before any user callback runs — and a discrete dispatcher
created during the call (a key outside the entry snapshot) is not
dispatched in that same call: its queue is never drained, it holds exactly
the events enqueued for it during the call, in order.  The recursion is
structural over the entry snapshot, so the call always completes. -/
theorem events_C8_snapshot_dispatch (s : EDState) :
    (edDispatchMT s).2.1 = edKeys s
      ∧ ∀ k, k ∉ edKeys s →
          edQueueOf (edDispatchMT s).1 k
            = (((edDispatchMT s).2.2.2).filter (fun c => c.1 == k)).map
                Prod.snd := by
  constructor
  · exact edDispatchMTAux_visited (s.map Prod.fst) s
  · intro k hk
    have hsnap : k ∉ s.map Prod.fst := by simpa [edKeys] using hk
    have h := edQueueOf_dispatchMTAux k (s.map Prod.fst) s hsnap
    rw [edQueueOf_eq_nil_of_not_mem s k hk] at h
    simpa [edDispatchMT] using h

/-- Witness for C8 at a concrete input: one entry at key 1 whose callback
enqueues the previously-unseen type 2.  The per-type dispatch runs exactly
on the entry snapshot `[1]`, and type 2 — created during the call — is not
dispatched: its queue afterwards is exactly the logged enqueue for it. -/
theorem events_C8_witness :
    (edDispatchMT [(1, ⟨[((0 : Nat), fun _ : Int => [((2 : Nat), (99 : Int))])],
          [7]⟩)]).2.1
        = edKeys [(1, ⟨[((0 : Nat), fun _ : Int => [((2 : Nat), (99 : Int))])],
            [7]⟩)]
      ∧ edQueueOf (edDispatchMT [(1, ⟨[((0 : Nat),
            fun _ : Int => [((2 : Nat), (99 : Int))])], [7]⟩)]).1 2
          = (((edDispatchMT [(1, ⟨[((0 : Nat),
                fun _ : Int => [((2 : Nat), (99 : Int))])], [7]⟩)]).2.2.2).filter
              (fun c => c.1 == 2)).map Prod.snd :=
  ⟨(events_C8_snapshot_dispatch _).1,
   (events_C8_snapshot_dispatch _).2 2 (by decide)⟩

/-! ### The single-threaded dispatch loop with observation-only callbacks -/

/-- Publishing through observation-only callbacks leaves the registry
unchanged, delivers the event to each callback once in order, and logs no
commands. -/
theorem edPublish_pure (k : Nat) (v : Int) :
    ∀ (cbs : List (Nat × (Int → List (Nat × Int)))), edPure cbs →
      ∀ s : EDState,
        edPublish k cbs v s = (s, cbs.map (fun c => (k, c.1, v)), []) := by
  intro cbs
  induction cbs with
  | nil => intro _ s; rfl
  | cons c rest ih =>
      intro hp s
      have hc : c.2 v = [] := hp c (List.mem_cons_self c rest) v
      have hrest : edPure rest := fun x hx => hp x (List.mem_cons_of_mem c hx)
      simp [edPublish, hc, ih hrest, edApplyCmds]

/-- The buffered-event loop with observation-only callbacks leaves the
registry unchanged, delivers each buffered event to each callback in FIFO
order, and logs no commands. -/
theorem edDrainLoop_pure (k : Nat)
    (cbs : List (Nat × (Int → List (Nat × Int)))) (hp : edPure cbs) :
    ∀ (buf : List Int) (s : EDState),
      edDrainLoop k cbs buf s
        = (s, buf.flatMap (fun v => cbs.map (fun c => (k, c.1, v))), []) := by
  intro buf
  induction buf with
  | nil => intro s; rfl
  | cons v rest ih =>
      intro s
      simp [edDrainLoop, edPublish_pure k v cbs hp, ih]

/-- Draining a present key whose callbacks are observation-only empties
exactly that key's queue and delivers its events in FIFO order. -/
theorem edDrainKey_pure (s : EDState) (k : Nat) (d : EDisc)
    (hfind : edLookup s k = some d) (hp : edPure d.callbacks) :
    edDrainKey s k
      = (edSetQueue s k [],
         d.queue.flatMap (fun v => d.callbacks.map (fun c => (k, c.1, v))),
         []) := by
  unfold edDrainKey
  rw [hfind]
  exact edDrainLoop_pure k d.callbacks hp d.queue (edSetQueue s k [])

/-- The map-iteration step skips a block of entries whose keys all lie at
or before the current position. -/
theorem edNextKey_append (s1 s2 : EDState) (last : Option Nat)
    (h1 : ∀ p ∈ s1, ¬ optLtKey last p.1) :
    edNextKey (s1 ++ s2) last = edNextKey s2 last := by
  induction s1 with
  | nil => rfl
  | cons p rest ih =>
      have hp := h1 p (List.mem_cons_self p rest)
      have hrest : ∀ q ∈ rest, ¬ optLtKey last q.1 := fun q hq =>
        h1 q (List.mem_cons_of_mem p hq)
      have hstep : edNextKey ((p :: rest) ++ s2) last
          = edNextKey (rest ++ s2) last := by
        simp only [edNextKey, List.cons_append, List.map_cons]
        apply List.find?_cons_of_neg
        cases last with
        | none => exact absurd trivial hp
        | some l =>
            have hnlt : ¬ l < p.1 := by simpa [optLtKey] using hp
            simp [hnlt]
      rw [hstep, ih hrest]

/-- The map-iteration step lands on the head of the remaining entries when
its key lies strictly after the current position. -/
theorem edNextKey_head (k : Nat) (d : EDisc) (s2 : EDState)
    (last : Option Nat) (h : optLtKey last k) :
    edNextKey ((k, d) :: s2) last = some k := by
  cases last with
  | none => simp [edNextKey]
  | some l =>
      have hlt : l < k := by simpa [optLtKey] using h
      simp [edNextKey, hlt]

/-- Looking a key up skips a block of entries with different keys. -/
theorem edLookup_append_ne (s1 s2 : EDState) (k : Nat)
    (h1 : ∀ p ∈ s1, p.1 ≠ k) :
    edLookup (s1 ++ s2) k = edLookup s2 k := by
  induction s1 with
  | nil => rfl
  | cons p rest ih =>
      have hp := h1 p (List.mem_cons_self p rest)
      have hrest : ∀ q ∈ rest, q.1 ≠ k := fun q hq =>
        h1 q (List.mem_cons_of_mem p hq)
      simp [edLookup, hp, ih hrest]

/-- Replacing the queue at a key skips a block of entries with different
keys. -/
theorem edSetQueue_append_ne (s1 s2 : EDState) (k : Nat) (q : List Int)
    (h1 : ∀ p ∈ s1, p.1 ≠ k) :
    edSetQueue (s1 ++ s2) k q = s1 ++ edSetQueue s2 k q := by
  induction s1 with
  | nil => rfl
  | cons p rest ih =>
      have hp := h1 p (List.mem_cons_self p rest)
      have hrest : ∀ x ∈ rest, x.1 ≠ k := fun x hx =>
        h1 x (List.mem_cons_of_mem p hx)
      simp [edSetQueue, hp, ih hrest]

/-- Replacing the queue of the head entry, when no later entry shares its
key. -/
theorem edSetQueue_cons_self (k : Nat) (d : EDisc) (s2 : EDState)
    (q : List Int) (h2 : ∀ p ∈ s2, p.1 ≠ k) :
    edSetQueue ((k, d) :: s2) k q = (k, { d with queue := q }) :: s2 := by
  have htail : edSetQueue s2 k q = s2 := by
    induction s2 with
    | nil => rfl
    | cons p rest ih =>
        have hp := h2 p (List.mem_cons_self p rest)
        have hrest : ∀ x ∈ rest, x.1 ≠ k := fun x hx =>
          h2 x (List.mem_cons_of_mem p hx)
        simp [edSetQueue, hp, ih hrest]
  simp [edSetQueue, htail]

/-- Entries already drained lie at or before the iteration position, hence
fail the iteration predicate. -/
theorem edClearQueues_not_optLt (done : EDState) (last : Option Nat)
    (hdone : ∀ p ∈ done, keyLeOpt p.1 last) :
    ∀ p ∈ edClearQueues done, ¬ optLtKey last p.1 := by
  intro p hpmem
  obtain ⟨q, hq, rfl⟩ := List.mem_map.mp hpmem
  have hle := hdone q hq
  cases last with
  | none => simp [keyLeOpt] at hle
  | some l =>
      simp only [keyLeOpt] at hle
      simp only [optLtKey]
      omega

/-- The single-threaded dispatch loop over a sorted map with
observation-only callbacks: starting after a drained prefix `done`, the
loop visits the remaining entries in key order, drains each queue exactly
once, delivers each drained event to each of that type's callbacks in FIFO
order, and terminates with every visited queue empty and an empty command
log. -/
theorem edDispatchSTAux_pure :
    ∀ (rest done : EDState) (fuel : Nat) (last : Option Nat),
      List.Pairwise (fun p q : Nat × EDisc => p.1 < q.1) (done ++ rest) →
      (∀ p ∈ rest, edPure p.2.callbacks) →
      (∀ p ∈ done, keyLeOpt p.1 last) →
      (∀ p ∈ rest, optLtKey last p.1) →
      rest.length + 1 ≤ fuel →
      edDispatchSTAux fuel last (edClearQueues done ++ rest)
        = some (edClearQueues (done ++ rest), edKeys rest, edCanonTrace rest,
            []) := by
  intro rest
  induction rest with
  | nil =>
      intro done fuel last _ _ hdone _ hfuel
      cases fuel with
      | zero => exact absurd hfuel (by omega)
      | succ f =>
          have hnk : edNextKey (edClearQueues done) last = none := by
            have h := edNextKey_append (edClearQueues done) [] last
              (edClearQueues_not_optLt done last hdone)
            simpa using h
          simp [edDispatchSTAux, hnk, edKeys, edCanonTrace]
  | cons hd tail ih =>
      intro done fuel last hsort0 hpure hdone hrest hfuel
      obtain ⟨k, d⟩ := hd
      cases fuel with
      | zero => exact absurd hfuel (by omega)
      | succ f =>
          have hsort := hsort0
          rw [List.pairwise_append] at hsort
          obtain ⟨_, hsort_rest, hcross⟩ := hsort
          rw [List.pairwise_cons] at hsort_rest
          obtain ⟨hk_tail, _⟩ := hsort_rest
          have hne_done_k : ∀ p ∈ edClearQueues done, p.1 ≠ k := by
            intro p hpmem
            obtain ⟨q, hq, rfl⟩ := List.mem_map.mp hpmem
            have hqk := hcross q hq (k, d) (List.mem_cons_self _ _)
            simp only at hqk ⊢
            omega
          have htail_ne : ∀ p ∈ tail, p.1 ≠ k := by
            intro p hp
            have := hk_tail p hp
            simp only at this
            omega
          have hA : edNextKey (edClearQueues done ++ (k, d) :: tail) last
              = some k := by
            rw [edNextKey_append _ _ _ (edClearQueues_not_optLt done last hdone)]
            exact edNextKey_head k d tail last
              (hrest (k, d) (List.mem_cons_self _ _))
          have hB : edLookup (edClearQueues done ++ (k, d) :: tail) k
              = some d := by
            rw [edLookup_append_ne _ _ _ hne_done_k]
            simp [edLookup]
          have hpure_head : edPure d.callbacks :=
            hpure (k, d) (List.mem_cons_self _ _)
          have hC := edDrainKey_pure _ k d hB hpure_head
          have hD : edSetQueue (edClearQueues done ++ (k, d) :: tail) k []
              = edClearQueues (done ++ [(k, d)]) ++ tail := by
            rw [edSetQueue_append_ne _ _ _ _ hne_done_k,
              edSetQueue_cons_self k d tail [] htail_ne]
            simp [edClearQueues, List.map_append]
          have hsort2 : List.Pairwise (fun p q : Nat × EDisc => p.1 < q.1)
              ((done ++ [(k, d)]) ++ tail) := by
            rw [List.append_assoc]
            exact hsort0
          have hpure2 : ∀ p ∈ tail, edPure p.2.callbacks := fun p hp =>
            hpure p (List.mem_cons_of_mem _ hp)
          have hdone2 : ∀ p ∈ done ++ [(k, d)], keyLeOpt p.1 (some k) := by
            intro p hp
            rcases List.mem_append.mp hp with h | h
            · have := hcross p h (k, d) (List.mem_cons_self _ _)
              simp only at this
              simp only [keyLeOpt]
              omega
            · rw [List.mem_singleton] at h
              subst h
              simp [keyLeOpt]
          have hrest2 : ∀ p ∈ tail, optLtKey (some k) p.1 := by
            intro p hp
            have := hk_tail p hp
            simpa [optLtKey] using this
          have hfuel2 : tail.length + 1 ≤ f := by
            simp only [List.length_cons] at hfuel
            omega
          have hih := ih (done ++ [(k, d)]) f (some k) hsort2 hpure2 hdone2
            hrest2 hfuel2
          rw [hD] at hC
          simp only [edDispatchSTAux, hA, hC, hih]
          simp [edClearQueues, edKeys, edCanonTrace, List.map_append,
            List.append_assoc]

/-- C7 counterexample: one entry at key 1 holding event 7, whose callback
enqueues 42 for the existing type 1 and 99 for the previously-unseen type 2
(whose key orders after 1).  `event_dispatcher::dispatch` iterates the live
`std::map`, so after visiting key 1 the iteration reaches the newly
inserted key 2 and drains it in the same cycle.  Afterwards
`queue_size<1>()` is 1 (not 0, although type 1 existed at entry — its
reentrant enqueue stays per I4) and `queue_size<2>()` is 0 (not 1, although
type 2 was created during the dispatch with one enqueue): the claim
predicts the pair (0, 1), the code produces (1, 0). -/
theorem events_C7_counterexample_dispatch_live_map :
    (edDispatchST 3 [(1, ⟨[((0 : Nat),
          fun _ : Int => [((1 : Nat), (42 : Int)), ((2 : Nat), (99 : Int))])],
          [7]⟩)]).map
        (fun r => (edQueueSizeT r.1 1, edQueueSizeT r.1 2))
      = some ((1 : Nat), (0 : Nat))
    ∧ (((1 : Nat), (0 : Nat)) : Nat × Nat) ≠ ((0 : Nat), (1 : Nat)) := by
  exact ⟨rfl, by decide⟩

/-- A registry with every queue drained reports total queue size 0. -/
theorem edQueueSizeTotal_clearQueues (s : EDState) :
    edQueueSizeTotal (edClearQueues s) = 0 := by
  induction s with
  | nil => rfl
  | cons p rest ih => simpa [edQueueSizeTotal, edClearQueues] using ih

/-- C7 amended: after `dispatch()` returns, `queue_size()` is 0 for every
event type provided no callback enqueued events during that dispatch (in
which case every type existed at entry, since types are only created by
callback activity): with observation-only callbacks the live-map iteration
terminates, visits exactly the entry keys in key order, delivers every
enqueued event FIFO per type, logs no dispatcher-level enqueues, and
leaves every queue empty.  (When callbacks do enqueue, the counterexample
shows an entry type can retain events and a type created at a
later-ordered key is drained in the same cycle.) -/
theorem events_C7_amended_no_reentrant_enqueues (s : EDState) (fuel : Nat)
    (hsort : List.Pairwise (fun p q : Nat × EDisc => p.1 < q.1) s)
    (hpure : ∀ p ∈ s, edPure p.2.callbacks)
    (hfuel : s.length + 1 ≤ fuel) :
    edDispatchST fuel s
        = some (edClearQueues s, edKeys s, edCanonTrace s, [])
      ∧ edQueueSizeTotal (edClearQueues s) = 0 := by
  constructor
  · have h := edDispatchSTAux_pure s [] fuel none (by simpa using hsort)
      hpure (by intro p hp; exact absurd hp (List.not_mem_nil p))
      (by intro p _; simp [optLtKey]) hfuel
    simpa [edDispatchST, edClearQueues] using h
  · exact edQueueSizeTotal_clearQueues s

/-- Witness for the amended C7 theorem at a concrete input: two entries
(keys 1 and 3) with observation-only callbacks; dispatch with fuel 3
drains both queues, visits keys in order, delivers the three events, and
the total queue size afterwards is 0. -/
theorem events_C7_amended_witness :
    edDispatchST 3 [(1, ⟨[((0 : Nat), fun _ : Int => ([] : List (Nat × Int)))],
          [5, 6]⟩),
        (3, ⟨([] : List (Nat × (Int → List (Nat × Int)))), [7]⟩)]
        = some (edClearQueues [(1, ⟨[((0 : Nat),
              fun _ : Int => ([] : List (Nat × Int)))], [5, 6]⟩),
            (3, ⟨([] : List (Nat × (Int → List (Nat × Int)))), [7]⟩)],
          edKeys [(1, ⟨[((0 : Nat), fun _ : Int => ([] : List (Nat × Int)))],
              [5, 6]⟩),
            (3, ⟨([] : List (Nat × (Int → List (Nat × Int)))), [7]⟩)],
          edCanonTrace [(1, ⟨[((0 : Nat),
              fun _ : Int => ([] : List (Nat × Int)))], [5, 6]⟩),
            (3, ⟨([] : List (Nat × (Int → List (Nat × Int)))), [7]⟩)], [])
      ∧ edQueueSizeTotal (edClearQueues [(1, ⟨[((0 : Nat),
            fun _ : Int => ([] : List (Nat × Int)))], [5, 6]⟩),
          (3, ⟨([] : List (Nat × (Int → List (Nat × Int)))), [7]⟩)]) = 0 :=
  events_C7_amended_no_reentrant_enqueues _ 3
    (by simp [List.pairwise_cons])
    (by
      intro p hp
      rcases List.mem_cons.mp hp with h | h
      · subst h
        intro c hc v
        rw [List.mem_singleton] at hc
        subst hc
        rfl
      · rcases List.mem_cons.mp h with h2 | h2
        · subst h2
          intro c hc v
          exact absurd hc (List.not_mem_nil c)
        · exact absurd h2 (List.not_mem_nil p))
    (by decide)

/-- C5 (code bug): connect callback 1, which during a publish re-enters
`connect` for a new callback tagged 2 (the deferred path: the pending pair
goes to `to_add` and the handle map records a null pointer).  When the
publish then runs `add_pending_callbacks_impl`, the inverted guard
`if (it != handles.end()) continue;` skips every pending callback whose
handle IS in the handle map — which is every callback deferred by a
reentrant connect — and clears `to_add`, silently dropping the
registration.  The second publish therefore still invokes only callback 1:
its trace is `[1]`, and tag 2 never appears, although the claim (and the
code's own comment and test) require callback 2 to be invoked by every
subsequent publish. -/
theorem events_C5_code_bug_pending_connect_dropped :
    ((syncPublish ((syncConnectDirect ⟨[], [], [], [], 0⟩
            (1, SAction.connectNew 2)).1)).bind
          (fun r => syncPublish r.1)).map Prod.snd
        = some [1]
      ∧ (2 : Nat) ∉ ([1] : List Nat) := by
  exact ⟨rfl, by decide⟩

/-- C6 (code bug): connect one callback (no publish in progress, so the
insertion is direct and `size()` reports 1), then `disconnect()` through
its connection.  `synchronized_signal_handler::disconnect` only appends
the handle to `to_erase`; `size()` still returns the colony size, so it
reports 1, not the 0 the claim (and the repo's own test) require.  The
erasure is deferred to the start of the next `publish`: that publish
invokes nothing (empty trace) and only afterwards does `size()` report
0. -/
theorem events_C6_code_bug_size_unchanged_after_disconnect :
    syncSize (syncDisconnect
          (syncConnectDirect ⟨[], [], [], [], 0⟩ (1, SAction.idle)).1 0) = 1
      ∧ (syncPublish (syncDisconnect
            (syncConnectDirect ⟨[], [], [], [], 0⟩ (1, SAction.idle)).1
            0)).map (fun r => (r.2, syncSize r.1))
          = some ([], 0) := by
  exact ⟨rfl, rfl⟩

end Events
